import Mathlib

/-!
Minkowski island: vertex generation and 2D transforms.

A shallow embedding of `src/Minkowski-Island/island.js`:

* `Vec2` (lines 33-46), with `add`, `sub`, `mult`, `rotateDeg`;
* `generateMinkowskiSide` (lines 58-91);
* `generateMinkowskiIslandVertices` (lines 101-122);
* the matrix helpers `m3.translation`, `m3.rotation`, `m3.multiply` (lines 338-362) and the
  product `u_transform * vec3(a_position, 1.0)` of the vertex shader (line 11).

JavaScript numbers are modelled by a type parameter `α` carrying the arithmetic operations the
source uses.  Results that only depend on the shape of the recursion are proved for every such
`α`; results that need the laws of arithmetic are proved in a field, and those that need the
values of `Math.cos` / `Math.sin` are proved over `ℝ` with `Real.cos`, `Real.sin`, `Real.pi`.
The JavaScript built-ins `Math.PI`, `Math.cos`, `Math.sin` are a parameter (`JsMath`).
Rounding is exhibited on `IntDouble`, the JavaScript numbers with an integer value, whose sum
and product round to a 53-bit significand.
-/

set_option linter.unusedSectionVars false

namespace MinkowskiIsland

/-- The built-ins `Math.PI`, `Math.cos` and `Math.sin` used by the source. -/
structure JsMath (α : Type) where
  PI : α
  cos : α → α
  sin : α → α

/-- Class `Vec2` (lines 33-46): a pair of numbers. -/
structure Vec2 (α : Type) where
  x : α
  y : α
deriving DecidableEq, Repr

section Defs

variable {α : Type} [Add α] [Sub α] [Mul α] [Div α] [Neg α] [Zero α] [One α] [NatCast α]

/-- `add(v) { return new Vec2(this.x + v.x, this.y + v.y); }` -/
def Vec2.add (self v : Vec2 α) : Vec2 α := ⟨self.x + v.x, self.y + v.y⟩

/-- `sub(v) { return new Vec2(this.x - v.x, this.y - v.y); }` -/
def Vec2.sub (self v : Vec2 α) : Vec2 α := ⟨self.x - v.x, self.y - v.y⟩

/-- `mult(scalar) { return new Vec2(this.x * scalar, this.y * scalar); }` -/
def Vec2.mult (self : Vec2 α) (scalar : α) : Vec2 α := ⟨self.x * scalar, self.y * scalar⟩

/-- `rotateDeg(angleDeg)` (lines 38-45). -/
def Vec2.rotateDeg (M : JsMath α) (self : Vec2 α) (angleDeg : α) : Vec2 α :=
  let angleRad := angleDeg * M.PI / 180
  let cosA := M.cos angleRad
  let sinA := M.sin angleRad
  let x := self.x * cosA - self.y * sinA
  let y := self.x * sinA + self.y * cosA
  ⟨x, y⟩

/-- `generateMinkowskiSide(p1, p2, depth)` (lines 58-91).  The eight `points.push(...)` calls
append the eight recursive results in order. -/
def generateMinkowskiSide (M : JsMath α) (p1 p2 : Vec2 α) (depth : Int) : List (Vec2 α) :=
  if depth ≤ 0 then
    [p1]
  else
    let v := p2.sub p1
    let v_perp := (v.rotateDeg M (-90)).mult (1 / 4)
    let v_quart := v.mult (1 / 4)
    let pA := p1.add v_quart
    let pB := (p1.add v_quart).add v_quart
    let pC := ((p1.add v_quart).add v_quart).add v_quart
    let pD := pA.add v_perp
    let pE := pD.add v_quart
    let pF := pB.add v_perp
    let pG := pF.add v_quart
    generateMinkowskiSide M p1 pA (depth - 1)
      ++ generateMinkowskiSide M pA pD (depth - 1)
      ++ generateMinkowskiSide M pD pE (depth - 1)
      ++ generateMinkowskiSide M pE pB (depth - 1)
      ++ generateMinkowskiSide M pB pF (depth - 1)
      ++ generateMinkowskiSide M pF pG (depth - 1)
      ++ generateMinkowskiSide M pG pC (depth - 1)
      ++ generateMinkowskiSide M pC p2 (depth - 1)
termination_by depth.toNat
decreasing_by all_goals omega

/-- `generateMinkowskiIslandVertices(center, size, depth)` (lines 101-122).  The `for ... of`
loop pushing `p.x, p.y` is a left fold over `allPoints`. -/
def generateMinkowskiIslandVertices (M : JsMath α) (center : Vec2 α) (size : α) (depth : Int) :
    List α :=
  let halfSize := size / 2
  let p1 := center.add ⟨-halfSize, -halfSize⟩
  let p2 := center.add ⟨halfSize, -halfSize⟩
  let p3 := center.add ⟨halfSize, halfSize⟩
  let p4 := center.add ⟨-halfSize, halfSize⟩
  let side1Points := generateMinkowskiSide M p1 p2 depth
  let side2Points := generateMinkowskiSide M p2 p3 depth
  let side3Points := generateMinkowskiSide M p3 p4 depth
  let side4Points := generateMinkowskiSide M p4 p1 depth
  let allPoints := side1Points ++ side2Points ++ side3Points ++ side4Points
  allPoints.foldl (fun vertices p => vertices ++ [p.x, p.y]) []

/-- How the renderer reads the flat buffer (lines 158-170, 272): two components per vertex,
stride 0, offset 0, so vertex `i` is `(vertices[2 i], vertices[2 i + 1])`. -/
def vertexAt (vertices : List α) (i : Nat) : Option (Vec2 α) :=
  match vertices[2 * i]?, vertices[2 * i + 1]? with
  | some x, some y => some ⟨x, y⟩
  | _, _ => none

/-- `m3.translation(tx, ty)` (line 340). -/
def m3.translation (tx ty : α) : Fin 9 → α := ![1, 0, 0, 0, 1, 0, tx, ty, 1]

/-- `m3.rotation(angleInRadians)` (lines 341-344). -/
def m3.rotation (M : JsMath α) (angleInRadians : α) : Fin 9 → α :=
  let c := M.cos angleInRadians
  let s := M.sin angleInRadians
  ![c, -s, 0, s, c, 0, 0, 0, 1]

/-- `m3.multiply(a, b)` (lines 346-358), on 9-element arrays. -/
def m3.multiply (a b : Fin 9 → α) : Fin 9 → α :=
  let a00 := a (0*3+0); let a01 := a (0*3+1); let a02 := a (0*3+2)
  let a10 := a (1*3+0); let a11 := a (1*3+1); let a12 := a (1*3+2)
  let a20 := a (2*3+0); let a21 := a (2*3+1); let a22 := a (2*3+2)
  let b00 := b (0*3+0); let b01 := b (0*3+1); let b02 := b (0*3+2)
  let b10 := b (1*3+0); let b11 := b (1*3+1); let b12 := b (1*3+2)
  let b20 := b (2*3+0); let b21 := b (2*3+1); let b22 := b (2*3+2)
  ![b00*a00 + b01*a10 + b02*a20, b00*a01 + b01*a11 + b02*a21, b00*a02 + b01*a12 + b02*a22,
    b10*a00 + b11*a10 + b12*a20, b10*a01 + b11*a11 + b12*a21, b10*a02 + b11*a12 + b12*a22,
    b20*a00 + b21*a10 + b22*a20, b20*a01 + b21*a11 + b22*a21, b20*a02 + b21*a12 + b22*a22]

/-- The product `u_transform * vec3(...)` of the vertex shader (line 11).  The matrix is
uploaded with `uniformMatrix3fv(location, false, matrix)` (line 256), so the array is read
column by column: entry `(row r, column c)` is `m[3 c + r]`. -/
def mulVec3 (m : Fin 9 → α) (v : Fin 3 → α) : Fin 3 → α :=
  ![m 0 * v 0 + m 3 * v 1 + m 6 * v 2,
    m 1 * v 0 + m 4 * v 1 + m 7 * v 2,
    m 2 * v 0 + m 5 * v 1 + m 8 * v 2]

end Defs

/-- A computable stand-in for the math built-ins over `ℚ`, exact at the only angle the
generator uses: `cos (-90°) = 0` and `sin (-90°) = -1`. -/
def quarterTurnMath : JsMath ℚ := ⟨0, fun _ => 0, fun _ => -1⟩

/-- Number of low bits a natural number has beyond a 53-bit significand. -/
def excessBits : Nat → Nat → Nat
  | 0, _ => 0
  | fuel + 1, n => if n < 2 ^ 53 then 0 else excessBits fuel (n / 2) + 1

/-- Rounding of a natural number to a 53-bit significand, to nearest, ties to even: the
rounding of IEEE-754 binary64, the format of JavaScript numbers, on integer values
(overflow to `Infinity`, above `2 ^ 1024`, is not modelled). -/
def roundNat53 (n : Nat) : Nat :=
  let k := excessBits 1024 n
  let q := n / 2 ^ k
  let r := n % 2 ^ k
  if 2 * r < 2 ^ k then q * 2 ^ k
  else if 2 ^ k < 2 * r then (q + 1) * 2 ^ k
  else if q % 2 = 0 then q * 2 ^ k
  else (q + 1) * 2 ^ k

/-- Rounding of an integer to the nearest JavaScript number; the format is symmetric in the
sign. -/
def round53 (z : Int) : Int :=
  if 0 ≤ z then (roundNat53 z.toNat : Int) else -(roundNat53 (-z).toNat : Int)

/-- JavaScript numbers with an integer value.  The exact sum and the exact product of two
integers are integers, so `+` and `*` of the source return that integer rounded by
`round53`. -/
structure IntDouble where
  val : Int
deriving DecidableEq, Repr

instance : Zero IntDouble := ⟨⟨0⟩⟩

instance : One IntDouble := ⟨⟨1⟩⟩

instance : Add IntDouble := ⟨fun a b => ⟨round53 (a.val + b.val)⟩⟩

instance : Mul IntDouble := ⟨fun a b => ⟨round53 (a.val * b.val)⟩⟩


/-! ## Unfolding the generator -/

section Shape

variable {α : Type} [Add α] [Sub α] [Mul α] [Div α] [Neg α] [Zero α] [One α] [NatCast α]

theorem side_of_nonpos (M : JsMath α) (p1 p2 : Vec2 α) {depth : Int} (h : depth ≤ 0) :
    generateMinkowskiSide M p1 p2 depth = [p1] := by
  rw [generateMinkowskiSide]; simp [h]

theorem side_zero (M : JsMath α) (p1 p2 : Vec2 α) :
    generateMinkowskiSide M p1 p2 0 = [p1] :=
  side_of_nonpos M p1 p2 (le_refl 0)

theorem side_of_pos (M : JsMath α) (p1 p2 : Vec2 α) {depth : Int} (h : 0 < depth) :
    generateMinkowskiSide M p1 p2 depth =
      let v := p2.sub p1
      let v_perp := (v.rotateDeg M (-90)).mult (1 / 4)
      let v_quart := v.mult (1 / 4)
      let pA := p1.add v_quart
      let pB := (p1.add v_quart).add v_quart
      let pC := ((p1.add v_quart).add v_quart).add v_quart
      let pD := pA.add v_perp
      let pE := pD.add v_quart
      let pF := pB.add v_perp
      let pG := pF.add v_quart
      generateMinkowskiSide M p1 pA (depth - 1)
        ++ generateMinkowskiSide M pA pD (depth - 1)
        ++ generateMinkowskiSide M pD pE (depth - 1)
        ++ generateMinkowskiSide M pE pB (depth - 1)
        ++ generateMinkowskiSide M pB pF (depth - 1)
        ++ generateMinkowskiSide M pF pG (depth - 1)
        ++ generateMinkowskiSide M pG pC (depth - 1)
        ++ generateMinkowskiSide M pC p2 (depth - 1) := by
  rw [generateMinkowskiSide]; simp [not_le.mpr h]

theorem side_succ (M : JsMath α) (p1 p2 : Vec2 α) (n : Nat) :
    generateMinkowskiSide M p1 p2 ((n : Int) + 1) =
      let v := p2.sub p1
      let v_perp := (v.rotateDeg M (-90)).mult (1 / 4)
      let v_quart := v.mult (1 / 4)
      let pA := p1.add v_quart
      let pB := (p1.add v_quart).add v_quart
      let pC := ((p1.add v_quart).add v_quart).add v_quart
      let pD := pA.add v_perp
      let pE := pD.add v_quart
      let pF := pB.add v_perp
      let pG := pF.add v_quart
      generateMinkowskiSide M p1 pA n
        ++ generateMinkowskiSide M pA pD n
        ++ generateMinkowskiSide M pD pE n
        ++ generateMinkowskiSide M pE pB n
        ++ generateMinkowskiSide M pB pF n
        ++ generateMinkowskiSide M pF pG n
        ++ generateMinkowskiSide M pG pC n
        ++ generateMinkowskiSide M pC p2 n := by
  rw [side_of_pos M p1 p2 (by omega)]; simp

theorem side_length_nat (M : JsMath α) (n : Nat) (p1 p2 : Vec2 α) :
    (generateMinkowskiSide M p1 p2 (n : Int)).length = 8 ^ n := by
  induction n generalizing p1 p2 with
  | zero => simp [side_of_nonpos]
  | succ k ih =>
    push_cast
    rw [side_succ]
    simp only [List.length_append, ih]
    ring

theorem side_head (M : JsMath α) (n : Nat) (p1 p2 : Vec2 α) :
    ∃ t, generateMinkowskiSide M p1 p2 (n : Int) = p1 :: t := by
  induction n generalizing p1 p2 with
  | zero => exact ⟨[], by simp [side_of_nonpos]⟩
  | succ k ih =>
    push_cast
    rw [side_succ]
    obtain ⟨t, ht⟩ := ih p1 (p1.add ((p2.sub p1).mult (1 / 4)))
    simp only [ht]
    exact ⟨_, by simp only [List.cons_append]; rfl⟩


/-- The flattening loop, one more point at the end. -/
theorem flatten_snoc (l : List (Vec2 α)) (p : Vec2 α) :
    (l ++ [p]).foldl (fun vertices q => vertices ++ [q.x, q.y]) []
      = l.foldl (fun vertices q => vertices ++ [q.x, q.y]) [] ++ [p.x, p.y] := by
  simp [List.foldl_append]

theorem flatten_length (l : List (Vec2 α)) :
    (l.foldl (fun vertices q => vertices ++ [q.x, q.y]) []).length = 2 * l.length := by
  induction l using List.reverseRecOn with
  | nil => simp
  | append_singleton l p ih =>
    rw [flatten_snoc, List.length_append, ih]
    simp
    ring

theorem flatten_getElem (l : List (Vec2 α)) (i : Nat) :
    (l.foldl (fun vertices q => vertices ++ [q.x, q.y]) [])[2 * i]? = (l[i]?).map (·.x)
      ∧ (l.foldl (fun vertices q => vertices ++ [q.x, q.y]) [])[2 * i + 1]?
          = (l[i]?).map (·.y) := by
  induction l using List.reverseRecOn with
  | nil => simp
  | append_singleton l p ih =>
    rw [flatten_snoc]
    rcases Nat.lt_trichotomy i l.length with h | h | h
    · have h1 : 2 * i < (l.foldl (fun vertices q => vertices ++ [q.x, q.y]) []).length := by
        rw [flatten_length]; omega
      have h2 : 2 * i + 1 < (l.foldl (fun vertices q => vertices ++ [q.x, q.y]) []).length := by
        rw [flatten_length]; omega
      rw [List.getElem?_append_left h1, List.getElem?_append_left h2,
        List.getElem?_append_left h]
      exact ih
    · have h1 : (l.foldl (fun vertices q => vertices ++ [q.x, q.y]) []).length ≤ 2 * i := by
        rw [flatten_length]; omega
      have h2 : (l.foldl (fun vertices q => vertices ++ [q.x, q.y]) []).length ≤ 2 * i + 1 := by
        rw [flatten_length]; omega
      rw [List.getElem?_append_right h1, List.getElem?_append_right h2,
        List.getElem?_append_right (le_of_eq h.symm), flatten_length]
      subst h
      simp
    · have h1 : (l.foldl (fun vertices q => vertices ++ [q.x, q.y]) []).length ≤ 2 * i := by
        rw [flatten_length]; omega
      have h2 : (l.foldl (fun vertices q => vertices ++ [q.x, q.y]) []).length ≤ 2 * i + 1 := by
        rw [flatten_length]; omega
      rw [List.getElem?_append_right h1, List.getElem?_append_right h2,
        List.getElem?_append_right (le_of_lt h), flatten_length]
      have e1 : 2 * i - 2 * l.length = (i - l.length - 1) * 2 + 2 := by omega
      have e2 : 2 * i + 1 - 2 * l.length = (i - l.length - 1) * 2 + 3 := by omega
      have e3 : i - l.length = (i - l.length - 1) + 1 := by omega
      rw [e1, e2, e3]
      simp

theorem vertexAt_flatten (l : List (Vec2 α)) (i : Nat) :
    vertexAt (l.foldl (fun vertices q => vertices ++ [q.x, q.y]) []) i = l[i]? := by
  unfold vertexAt
  rw [(flatten_getElem l i).1, (flatten_getElem l i).2]
  cases l[i]? <;> simp


/-- Appending blocks preserves "every 8th element of `s` is `t`". -/
theorem every_eighth_append {s t s2 t2 : List (Vec2 α)}
    (h : s.length = 8 * t.length ∧ ∀ j, j < t.length → s[8 * j]? = t[j]?)
    (h2 : s2.length = 8 * t2.length ∧ ∀ j, j < t2.length → s2[8 * j]? = t2[j]?) :
    (s ++ s2).length = 8 * (t ++ t2).length
      ∧ ∀ j, j < (t ++ t2).length → (s ++ s2)[8 * j]? = (t ++ t2)[j]? := by
  refine ⟨by simp [h.1, h2.1]; ring, fun j hj => ?_⟩
  by_cases hlt : j < t.length
  · rw [List.getElem?_append_left (by omega), List.getElem?_append_left hlt]
    exact h.2 j hlt
  · rw [List.length_append] at hj
    rw [List.getElem?_append_right (by omega), List.getElem?_append_right (by omega), h.1,
      ← Nat.mul_sub]
    exact h2.2 _ (by omega)

theorem side_every_eighth (M : JsMath α) (n : Nat) (p1 p2 : Vec2 α) :
    (generateMinkowskiSide M p1 p2 ((n : Int) + 1)).length
        = 8 * (generateMinkowskiSide M p1 p2 (n : Int)).length
      ∧ ∀ j, j < (generateMinkowskiSide M p1 p2 (n : Int)).length →
          (generateMinkowskiSide M p1 p2 ((n : Int) + 1))[8 * j]?
            = (generateMinkowskiSide M p1 p2 (n : Int))[j]? := by
  induction n generalizing p1 p2 with
  | zero =>
    have h1 := side_length_nat M 1 p1 p2
    obtain ⟨t, ht⟩ := side_head M 1 p1 p2
    simp only [Nat.cast_one, Nat.cast_zero, zero_add] at h1 ht ⊢
    rw [side_of_nonpos M p1 p2 (le_refl 0)]
    refine ⟨by simpa using h1, fun j hj => ?_⟩
    have hj0 : j = 0 := by simpa using hj
    subst hj0
    rw [ht]; simp
  | succ k ih =>
    have e := side_succ M p1 p2 (k + 1)
    push_cast at e ⊢
    rw [e, side_succ M p1 p2 k]
    simp only []
    exact every_eighth_append (every_eighth_append (every_eighth_append (every_eighth_append
      (every_eighth_append (every_eighth_append (every_eighth_append (ih _ _) (ih _ _))
      (ih _ _)) (ih _ _)) (ih _ _)) (ih _ _)) (ih _ _)) (ih _ _)

end Shape


/-! ## Exact real arithmetic -/

section Exact

theorem real_cos_quarter : Real.cos (-90 * Real.pi / 180) = 0 := by
  have e : (-90 * Real.pi / 180 : ℝ) = -(Real.pi / 2) := by ring
  rw [e, Real.cos_neg, Real.cos_pi_div_two]

theorem real_sin_quarter : Real.sin (-90 * Real.pi / 180) = -1 := by
  have e : (-90 * Real.pi / 180 : ℝ) = -(Real.pi / 2) := by ring
  rw [e, Real.sin_neg, Real.sin_pi_div_two]

theorem vec2_eq_iff {α : Type} (p q : Vec2 α) : p = q ↔ p.x = q.x ∧ p.y = q.y := by
  cases p; cases q; simp

theorem side_ne_nil (M : JsMath ℝ) (n : Nat) (p1 p2 : Vec2 ℝ) :
    generateMinkowskiSide M p1 p2 (n : Int) ≠ [] := by
  obtain ⟨t, ht⟩ := side_head M n p1 p2
  simp [ht]

/-- The last point of a side is one step of length `(p2 - p1) / 4 ^ n` short of `p2`. -/
theorem side_getLast (M : JsMath ℝ) (n : Nat) (p1 p2 : Vec2 ℝ) :
    ∃ L, (generateMinkowskiSide M p1 p2 (n : Int)).getLast? = some L
      ∧ L.x + (p2.x - p1.x) / 4 ^ n = p2.x ∧ L.y + (p2.y - p1.y) / 4 ^ n = p2.y := by
  induction n generalizing p1 p2 with
  | zero =>
    refine ⟨p1, by simp [side_of_nonpos], by simp, by simp⟩
  | succ k ih =>
    push_cast
    rw [side_succ]
    simp only []
    obtain ⟨L, hL, hx, hy⟩ :=
      ih ((((p1.add ((p2.sub p1).mult (1 / 4))).add ((p2.sub p1).mult (1 / 4))).add
        ((p2.sub p1).mult (1 / 4)))) p2
    refine ⟨L, ?_, ?_, ?_⟩
    · rw [List.getLast?_append_of_ne_nil _ (side_ne_nil M k _ _)]
      exact hL
    · simp only [Vec2.add, Vec2.sub, Vec2.mult] at hx
      have e : (p2.x - p1.x) / 4 ^ (k + 1)
          = (p2.x - (p1.x + (p2.x - p1.x) * (1 / 4) + (p2.x - p1.x) * (1 / 4)
              + (p2.x - p1.x) * (1 / 4))) / 4 ^ k := by
        rw [pow_succ]
        field_simp
        ring
      rw [e]
      exact hx
    · simp only [Vec2.add, Vec2.sub, Vec2.mult] at hy
      have e : (p2.y - p1.y) / 4 ^ (k + 1)
          = (p2.y - (p1.y + (p2.y - p1.y) * (1 / 4) + (p2.y - p1.y) * (1 / 4)
              + (p2.y - p1.y) * (1 / 4))) / 4 ^ k := by
        rw [pow_succ]
        field_simp
        ring
      rw [e]
      exact hy


/-- Gluing two polylines at a shared point. -/
theorem chain_glue {s rest : List (Vec2 ℝ)} {b : Vec2 ℝ}
    (h1 : List.Chain' (fun p q => p ≠ q) (s ++ [b]))
    (h2 : List.Chain' (fun p q => p ≠ q) rest) (h3 : ∃ t, rest = b :: t) :
    List.Chain' (fun p q => p ≠ q) (s ++ rest) := by
  obtain ⟨t, rfl⟩ := h3
  have h2b : List.Chain' (fun p q => p ≠ q) ([b] ++ t) := by simpa using h2
  simpa using List.Chain'.append_overlap h1 h2b (by simp)

/-- With the exact quarter turn, a side followed by its end point never repeats a point
twice in a row, provided its two end points differ. -/
theorem side_chain (M : JsMath ℝ) (hc : M.cos (-90 * M.PI / 180) = 0)
    (hs : M.sin (-90 * M.PI / 180) = -1) (n : Nat) (p1 p2 : Vec2 ℝ) (hne : p1 ≠ p2) :
    List.Chain' (fun p q => p ≠ q) (generateMinkowskiSide M p1 p2 (n : Int) ++ [p2]) := by
  induction n generalizing p1 p2 with
  | zero => simpa [side_of_nonpos] using hne
  | succ k ih =>
    push_cast
    rw [side_succ]
    simp only [List.append_assoc]
    have hv : p2.x - p1.x ≠ 0 ∨ p2.y - p1.y ≠ 0 := by
      by_contra hcon
      push_neg at hcon
      exact hne ((vec2_eq_iff _ _).2 ⟨by linarith [hcon.1], by linarith [hcon.2]⟩)
    have key : ∀ a b : Vec2 ℝ,
        (b.x - a.x = (p2.x - p1.x) / 4 ∧ b.y - a.y = (p2.y - p1.y) / 4)
        ∨ (b.x - a.x = (p2.y - p1.y) / 4 ∧ b.y - a.y = -(p2.x - p1.x) / 4)
        ∨ (b.x - a.x = -(p2.y - p1.y) / 4 ∧ b.y - a.y = (p2.x - p1.x) / 4) → a ≠ b := by
      intro a b h hab
      subst hab
      rcases h with h | h | h <;> rcases hv with hv | hv <;> apply hv <;> linarith [h.1, h.2]
    have head := fun (a b : Vec2 ℝ) => side_head M k a b
    refine chain_glue (ih _ _ (key _ _ ?_)) (chain_glue (ih _ _ (key _ _ ?_))
      (chain_glue (ih _ _ (key _ _ ?_)) (chain_glue (ih _ _ (key _ _ ?_))
      (chain_glue (ih _ _ (key _ _ ?_)) (chain_glue (ih _ _ (key _ _ ?_))
      (chain_glue (ih _ _ (key _ _ ?_)) (ih _ _ (key _ _ ?_)) ?_) ?_) ?_) ?_) ?_) ?_) ?_
    all_goals first
      | (obtain ⟨t, ht⟩ := head _ _; exact ⟨_, by rw [ht]; rfl⟩)
      | skip
    all_goals simp only [Vec2.add, Vec2.sub, Vec2.mult, Vec2.rotateDeg, hc, hs]
    · left; constructor <;> ring
    · right; left; constructor <;> ring
    · left; constructor <;> ring
    · right; right; constructor <;> ring
    · right; left; constructor <;> ring
    · left; constructor <;> ring
    · right; right; constructor <;> ring
    · left; constructor <;> ring


/-- A closed polyline without repeated consecutive points, read cyclically by index. -/
theorem cyclic_of_chain {pts : List (Vec2 ℝ)} {a : Vec2 ℝ} (hhead : ∃ t, pts = a :: t)
    (h : List.Chain' (fun p q => p ≠ q) (pts ++ [a])) (i : Nat) (hi : i < pts.length) :
    ∃ p q, pts[i]? = some p ∧ pts[(i + 1) % pts.length]? = some q ∧ p ≠ q := by
  have hR := List.chain'_iff_get.1 h i (by simp; omega)
  simp only [List.get_eq_getElem] at hR
  rw [List.getElem_append_left hi] at hR
  by_cases hlast : i + 1 < pts.length
  · rw [List.getElem_append_left hlast] at hR
    refine ⟨pts[i], pts[i + 1], by simp [hi], ?_, hR⟩
    rw [Nat.mod_eq_of_lt hlast]
    simp [hlast]
  · have hlen : i + 1 = pts.length := by omega
    rw [List.getElem_append_right (by omega)] at hR
    refine ⟨pts[i], a, by simp [hi], ?_, by simpa using hR⟩
    rw [hlen, Nat.mod_self]
    obtain ⟨t, rfl⟩ := hhead
    simp

/-- The point list of the island, as computed before flattening. -/
theorem island_eq_flatten {α : Type} [Add α] [Sub α] [Mul α] [Div α] [Neg α] [Zero α] [One α]
    [NatCast α] (M : JsMath α) (center : Vec2 α) (size : α) (depth : Int) :
    generateMinkowskiIslandVertices M center size depth =
      (generateMinkowskiSide M (center.add ⟨-(size / 2), -(size / 2)⟩)
          (center.add ⟨size / 2, -(size / 2)⟩) depth
        ++ generateMinkowskiSide M (center.add ⟨size / 2, -(size / 2)⟩)
          (center.add ⟨size / 2, size / 2⟩) depth
        ++ generateMinkowskiSide M (center.add ⟨size / 2, size / 2⟩)
          (center.add ⟨-(size / 2), size / 2⟩) depth
        ++ generateMinkowskiSide M (center.add ⟨-(size / 2), size / 2⟩)
          (center.add ⟨-(size / 2), -(size / 2)⟩) depth).foldl
        (fun vertices p => vertices ++ [p.x, p.y]) [] := rfl

theorem island_cyclic (M : JsMath ℝ) (hc : M.cos (-90 * M.PI / 180) = 0)
    (hs : M.sin (-90 * M.PI / 180) = -1) (center : Vec2 ℝ) (size : ℝ) (hsize : 0 < size)
    (n i : Nat) (hi : i < 4 * 8 ^ n) :
    ∃ p q, vertexAt (generateMinkowskiIslandVertices M center size (n : Int)) i = some p
      ∧ vertexAt (generateMinkowskiIslandVertices M center size (n : Int))
          ((i + 1) % (4 * 8 ^ n)) = some q
      ∧ p ≠ q := by
  rw [island_eq_flatten, vertexAt_flatten, vertexAt_flatten]
  have hlen : (generateMinkowskiSide M (center.add ⟨-(size / 2), -(size / 2)⟩)
          (center.add ⟨size / 2, -(size / 2)⟩) (n : Int)
        ++ generateMinkowskiSide M (center.add ⟨size / 2, -(size / 2)⟩)
          (center.add ⟨size / 2, size / 2⟩) (n : Int)
        ++ generateMinkowskiSide M (center.add ⟨size / 2, size / 2⟩)
          (center.add ⟨-(size / 2), size / 2⟩) (n : Int)
        ++ generateMinkowskiSide M (center.add ⟨-(size / 2), size / 2⟩)
          (center.add ⟨-(size / 2), -(size / 2)⟩) (n : Int)).length = 4 * 8 ^ n := by
    simp only [List.length_append, side_length_nat]
    ring
  rw [← hlen] at hi ⊢
  refine cyclic_of_chain (a := center.add ⟨-(size / 2), -(size / 2)⟩) ?_ ?_ i hi
  · obtain ⟨t, ht⟩ := side_head M n (center.add ⟨-(size / 2), -(size / 2)⟩)
      (center.add ⟨size / 2, -(size / 2)⟩)
    exact ⟨_, by rw [ht]; rfl⟩
  · simp only [List.append_assoc]
    have head := fun (a b : Vec2 ℝ) => side_head M n a b
    refine chain_glue (side_chain M hc hs n _ _ ?_) (chain_glue (side_chain M hc hs n _ _ ?_)
      (chain_glue (side_chain M hc hs n _ _ ?_) (side_chain M hc hs n _ _ ?_) ?_) ?_) ?_
    all_goals first
      | (obtain ⟨t, ht⟩ := head _ _; exact ⟨_, by rw [ht]; rfl⟩)
      | skip
    all_goals
      intro hcon
      have hx := congrArg Vec2.x hcon
      have hy := congrArg Vec2.y hcon
      simp only [Vec2.add] at hx hy
      linarith

end Exact


/-! ## Corners of the base square -/

section Corners

/-- In four blocks of equal length whose heads are `a1 … a4`, the heads sit at the
multiples of the block length. -/
theorem heads_of_blocks {β : Type} {s1 s2 s3 s4 : List β} {a1 a2 a3 a4 : β} {L : Nat}
    (h1 : ∃ t, s1 = a1 :: t) (h2 : ∃ t, s2 = a2 :: t) (h3 : ∃ t, s3 = a3 :: t)
    (h4 : ∃ t, s4 = a4 :: t) (l1 : s1.length = L) (l2 : s2.length = L) (l3 : s3.length = L) :
    (s1 ++ s2 ++ s3 ++ s4)[0]? = some a1 ∧ (s1 ++ s2 ++ s3 ++ s4)[L]? = some a2
      ∧ (s1 ++ s2 ++ s3 ++ s4)[2 * L]? = some a3 ∧ (s1 ++ s2 ++ s3 ++ s4)[3 * L]? = some a4 := by
  obtain ⟨t1, rfl⟩ := h1
  obtain ⟨t2, rfl⟩ := h2
  obtain ⟨t3, rfl⟩ := h3
  obtain ⟨t4, rfl⟩ := h4
  refine ⟨by simp, ?_, ?_, ?_⟩
  · rw [List.append_assoc, List.append_assoc, List.getElem?_append_right (by omega), l1]
    simp
  · rw [List.append_assoc, List.append_assoc, List.getElem?_append_right (by omega),
      List.getElem?_append_right (by omega), l1, l2]
    have e : 2 * L - L - L = 0 := by omega
    rw [e]
    simp
  · rw [List.getElem?_append_right (by simp only [List.length_append]; omega)]
    have e : 3 * L - ((a1 :: t1) ++ (a2 :: t2) ++ (a3 :: t3)).length = 0 := by
      simp only [List.length_append]; omega
    rw [e]
    simp

theorem island_corner_points {α : Type} [Field α] (M : JsMath α) (center : Vec2 α) (size : α)
    (n : Nat) :
    vertexAt (generateMinkowskiIslandVertices M center size (n : Int)) 0
        = some ⟨center.x - size / 2, center.y - size / 2⟩
      ∧ vertexAt (generateMinkowskiIslandVertices M center size (n : Int)) (8 ^ n)
        = some ⟨center.x + size / 2, center.y - size / 2⟩
      ∧ vertexAt (generateMinkowskiIslandVertices M center size (n : Int)) (2 * 8 ^ n)
        = some ⟨center.x + size / 2, center.y + size / 2⟩
      ∧ vertexAt (generateMinkowskiIslandVertices M center size (n : Int)) (3 * 8 ^ n)
        = some ⟨center.x - size / 2, center.y + size / 2⟩ := by
  rw [island_eq_flatten]
  simp only [vertexAt_flatten]
  have h := heads_of_blocks (side_head M n _ _) (side_head M n _ _) (side_head M n _ _)
    (side_head M n (center.add ⟨-(size / 2), size / 2⟩) (center.add ⟨-(size / 2), -(size / 2)⟩))
    (side_length_nat M n (center.add ⟨-(size / 2), -(size / 2)⟩)
      (center.add ⟨size / 2, -(size / 2)⟩))
    (side_length_nat M n (center.add ⟨size / 2, -(size / 2)⟩)
      (center.add ⟨size / 2, size / 2⟩))
    (side_length_nat M n (center.add ⟨size / 2, size / 2⟩)
      (center.add ⟨-(size / 2), size / 2⟩))
  simp only [Vec2.add, ← sub_eq_add_neg] at h ⊢
  exact h

end Corners


/-! ## The generator, for any number type -/

section Generic

variable {α : Type} [Add α] [Sub α] [Mul α] [Div α] [Neg α] [Zero α] [One α] [NatCast α]

/-- C1: for every pair of points `p1`, `p2` and every integer `depth ≥ 0`,
`generateMinkowskiSide p1 p2 depth` returns exactly `8 ^ depth` points. -/
theorem side_vertex_count (M : JsMath α) (p1 p2 : Vec2 α) (depth : Int) (hdepth : 0 ≤ depth) :
    (generateMinkowskiSide M p1 p2 depth).length = 8 ^ depth.toNat := by
  lift depth to Nat using hdepth
  simpa using side_length_nat M depth p1 p2

theorem side_vertex_count_witness :
    (0 : Int) ≤ 2
      ∧ (generateMinkowskiSide quarterTurnMath ⟨0, 0⟩ ⟨4, 0⟩ 2).length = 8 ^ (2 : Int).toNat :=
  ⟨by decide, side_vertex_count quarterTurnMath ⟨0, 0⟩ ⟨4, 0⟩ 2 (by decide)⟩

/-- C2: for every center, size and integer `depth ≥ 0`, `generateMinkowskiIslandVertices`
returns a flat list of exactly `8 * 8 ^ depth` numbers, the four sides together have
`4 * 8 ^ depth` points, and the numbers at indices `2 i` and `2 i + 1` are the x- and the
y-coordinate of the `i`-th point of `side1 ++ side2 ++ side3 ++ side4`. -/
theorem island_flat_layout (M : JsMath α) (center : Vec2 α) (size : α) (depth : Int)
    (hdepth : 0 ≤ depth) :
    let halfSize := size / 2
    let p1 := center.add ⟨-halfSize, -halfSize⟩
    let p2 := center.add ⟨halfSize, -halfSize⟩
    let p3 := center.add ⟨halfSize, halfSize⟩
    let p4 := center.add ⟨-halfSize, halfSize⟩
    let sides := generateMinkowskiSide M p1 p2 depth ++ generateMinkowskiSide M p2 p3 depth
      ++ generateMinkowskiSide M p3 p4 depth ++ generateMinkowskiSide M p4 p1 depth
    let vertices := generateMinkowskiIslandVertices M center size depth
    vertices.length = 8 * 8 ^ depth.toNat ∧ sides.length = 4 * 8 ^ depth.toNat
      ∧ ∀ i, i < sides.length →
          ∃ p, sides[i]? = some p ∧ vertices[2 * i]? = some p.x
            ∧ vertices[2 * i + 1]? = some p.y := by
  intro halfSize p1 p2 p3 p4 sides vertices
  have hv : vertices = sides.foldl (fun vertices p => vertices ++ [p.x, p.y]) [] := rfl
  have hlen : sides.length = 4 * 8 ^ depth.toNat := by
    lift depth to Nat using hdepth
    simp only [sides, List.length_append, side_length_nat, Int.toNat_ofNat]
    ring
  refine ⟨?_, hlen, fun i hi => ?_⟩
  · rw [hv, flatten_length, hlen]
    ring
  · refine ⟨sides[i], by simp [hi], ?_, ?_⟩
    · rw [hv, (flatten_getElem sides i).1]
      simp [hi]
    · rw [hv, (flatten_getElem sides i).2]
      simp [hi]

theorem island_flat_layout_witness :
    (0 : Int) ≤ 1
      ∧ (generateMinkowskiIslandVertices quarterTurnMath ⟨0, 0⟩ 10 1).length
          = 8 * 8 ^ (1 : Int).toNat :=
  ⟨by decide, (island_flat_layout quarterTurnMath ⟨0, 0⟩ 10 1 (by decide)).1⟩

/-- C9: for all points `p1`, `p2` and every integer `depth ≤ 0` (zero or negative),
`generateMinkowskiSide p1 p2 depth` returns the one-element sequence `[p1]`; the function is
total, so it terminates. -/
theorem side_base_case (M : JsMath α) (p1 p2 : Vec2 α) (depth : Int) (hdepth : depth ≤ 0) :
    generateMinkowskiSide M p1 p2 depth = [p1] :=
  side_of_nonpos M p1 p2 hdepth

theorem side_base_case_witness :
    (-3 : Int) ≤ 0 ∧ generateMinkowskiSide quarterTurnMath ⟨0, 0⟩ ⟨4, 0⟩ (-3) = [⟨0, 0⟩] :=
  ⟨by decide, side_base_case quarterTurnMath ⟨0, 0⟩ ⟨4, 0⟩ (-3) (by decide)⟩

/-- C10: for all points `p1`, `p2` and every integer `d ≥ 0`, the side at depth `d + 1` is 8
times as long as the side at depth `d`, and its points at indices `0, 8, 16, …` are, in
order, the points of the side at depth `d`. -/
theorem side_refines_previous_level (M : JsMath α) (p1 p2 : Vec2 α) (d : Int) (hd : 0 ≤ d) :
    (generateMinkowskiSide M p1 p2 (d + 1)).length = 8 * (generateMinkowskiSide M p1 p2 d).length
      ∧ ∀ i, i < (generateMinkowskiSide M p1 p2 d).length →
          (generateMinkowskiSide M p1 p2 (d + 1))[8 * i]? = (generateMinkowskiSide M p1 p2 d)[i]? := by
  lift d to Nat using hd
  exact side_every_eighth M d p1 p2

theorem side_refines_previous_level_witness :
    (0 : Int) ≤ 1
      ∧ (generateMinkowskiSide quarterTurnMath ⟨0, 0⟩ ⟨4, 0⟩ (1 + 1)).length
          = 8 * (generateMinkowskiSide quarterTurnMath ⟨0, 0⟩ ⟨4, 0⟩ 1).length
      ∧ ∀ i, i < (generateMinkowskiSide quarterTurnMath ⟨0, 0⟩ ⟨4, 0⟩ 1).length →
          (generateMinkowskiSide quarterTurnMath ⟨0, 0⟩ ⟨4, 0⟩ (1 + 1))[8 * i]?
            = (generateMinkowskiSide quarterTurnMath ⟨0, 0⟩ ⟨4, 0⟩ 1)[i]? :=
  ⟨by decide, side_refines_previous_level quarterTurnMath ⟨0, 0⟩ ⟨4, 0⟩ 1 (by decide)⟩

end Generic

/-! ## Composition of transforms -/

theorem vec9_apply {α : Type} (v0 v1 v2 v3 v4 v5 v6 v7 v8 : α) :
    ![v0, v1, v2, v3, v4, v5, v6, v7, v8] 0 = v0 ∧ ![v0, v1, v2, v3, v4, v5, v6, v7, v8] 1 = v1
      ∧ ![v0, v1, v2, v3, v4, v5, v6, v7, v8] 2 = v2 ∧ ![v0, v1, v2, v3, v4, v5, v6, v7, v8] 3 = v3
      ∧ ![v0, v1, v2, v3, v4, v5, v6, v7, v8] 4 = v4 ∧ ![v0, v1, v2, v3, v4, v5, v6, v7, v8] 5 = v5
      ∧ ![v0, v1, v2, v3, v4, v5, v6, v7, v8] 6 = v6 ∧ ![v0, v1, v2, v3, v4, v5, v6, v7, v8] 7 = v7
      ∧ ![v0, v1, v2, v3, v4, v5, v6, v7, v8] 8 = v8 :=
  ⟨rfl, rfl, rfl, rfl, rfl, rfl, rfl, rfl, rfl⟩

theorem vec3_congr {α : Type} {a b c d e f : α} (h1 : a = d) (h2 : b = e) (h3 : c = f) :
    ![a, b, c] = ![d, e, f] := by
  subst h1 h2 h3; rfl

theorem multiply_apply {α : Type} [Add α] [Mul α] (a b : Fin 9 → α) :
    m3.multiply a b =
      ![b 0 * a 0 + b 1 * a 3 + b 2 * a 6, b 0 * a 1 + b 1 * a 4 + b 2 * a 7,
        b 0 * a 2 + b 1 * a 5 + b 2 * a 8,
        b 3 * a 0 + b 4 * a 3 + b 5 * a 6, b 3 * a 1 + b 4 * a 4 + b 5 * a 7,
        b 3 * a 2 + b 4 * a 5 + b 5 * a 8,
        b 6 * a 0 + b 7 * a 3 + b 8 * a 6, b 6 * a 1 + b 7 * a 4 + b 8 * a 7,
        b 6 * a 2 + b 7 * a 5 + b 8 * a 8] := rfl

theorem mulVec3_apply {α : Type} [Add α] [Mul α] (m : Fin 9 → α) (x y w : α) :
    mulVec3 m ![x, y, w]
      = ![m 0 * x + m 3 * y + m 6 * w, m 1 * x + m 4 * y + m 7 * w,
          m 2 * x + m 5 * y + m 8 * w] := rfl

/-- C4 (as the spec words it) fails in the arithmetic of the program: with
`a = m3.translation (-2^53) 0`, `b = m3.translation (2^53) 0` and `p = (1, 0, 1)`, the product
matrix applied to `p` gives `(1, 0, 1)`, while applying `b` and then `a` gives `(0, 0, 1)`,
because `1 + 2^53` rounds to `2^53`. -/
theorem multiply_rounding_counterexample :
    mulVec3 (m3.multiply (m3.translation (⟨-2 ^ 53⟩ : IntDouble) ⟨0⟩)
        (m3.translation ⟨2 ^ 53⟩ ⟨0⟩)) ![⟨1⟩, ⟨0⟩, ⟨1⟩] = ![⟨1⟩, ⟨0⟩, ⟨1⟩]
      ∧ mulVec3 (m3.translation (⟨-2 ^ 53⟩ : IntDouble) ⟨0⟩)
          (mulVec3 (m3.translation ⟨2 ^ 53⟩ ⟨0⟩) ![⟨1⟩, ⟨0⟩, ⟨1⟩]) = ![⟨0⟩, ⟨0⟩, ⟨1⟩]
      ∧ mulVec3 (m3.multiply (m3.translation (⟨-2 ^ 53⟩ : IntDouble) ⟨0⟩)
          (m3.translation ⟨2 ^ 53⟩ ⟨0⟩)) ![⟨1⟩, ⟨0⟩, ⟨1⟩]
        ≠ mulVec3 (m3.translation (⟨-2 ^ 53⟩ : IntDouble) ⟨0⟩)
          (mulVec3 (m3.translation ⟨2 ^ 53⟩ ⟨0⟩) ![⟨1⟩, ⟨0⟩, ⟨1⟩]) := by
  decide

/-- C4 (as the code computes it): in exact arithmetic (a commutative ring) applying
`m3.multiply a b` to `(x, y, 1)` as the vertex shader does equals applying `b` and then `a`;
and in any arithmetic where `1` is neutral for `*`, `0` is absorbing for `*` and neutral for
`+` (no associativity or distributivity, so rounding is allowed),
`m3.multiply (m3.translation tx ty) (m3.rotation t)` is the array
`[c, -s, 0, s, c, 0, tx, ty, 1]` and maps `(x, y, 1)` to its rotation about the origin
followed by the translation by `(tx, ty)`. -/
theorem multiply_applies_b_then_a_exact :
    (∀ (R : Type) [CommRing R] (a b : Fin 9 → R) (x y : R),
        mulVec3 (m3.multiply a b) ![x, y, 1] = mulVec3 a (mulVec3 b ![x, y, 1]))
      ∧ ∀ (α : Type) [Add α] [Mul α] [Neg α] [Zero α] [One α] (M : JsMath α)
          (tx ty t x y : α),
          (∀ z : α, 1 * z = z) → (∀ z : α, z * 1 = z) → (∀ z : α, 0 * z = 0) →
          (∀ z : α, z * 0 = 0) → (∀ z : α, z + 0 = z) → (∀ z : α, 0 + z = z) →
          m3.multiply (m3.translation tx ty) (m3.rotation M t)
              = ![M.cos t, -(M.sin t), 0, M.sin t, M.cos t, 0, tx, ty, 1]
            ∧ mulVec3 (m3.rotation M t) ![x, y, 1]
              = ![M.cos t * x + M.sin t * y, -(M.sin t) * x + M.cos t * y, 1]
            ∧ mulVec3 (m3.multiply (m3.translation tx ty) (m3.rotation M t)) ![x, y, 1]
              = mulVec3 (m3.translation tx ty) (mulVec3 (m3.rotation M t) ![x, y, 1])
            ∧ mulVec3 (m3.multiply (m3.translation tx ty) (m3.rotation M t)) ![x, y, 1]
              = ![(M.cos t * x + M.sin t * y) + tx, (-(M.sin t) * x + M.cos t * y) + ty, 1] := by
  constructor
  · intro R _ a b x y
    simp only [mulVec3_apply, multiply_apply]
    obtain ⟨e0, e1, e2, e3, e4, e5, e6, e7, e8⟩ := vec9_apply
      (b 0 * a 0 + b 1 * a 3 + b 2 * a 6) (b 0 * a 1 + b 1 * a 4 + b 2 * a 7)
      (b 0 * a 2 + b 1 * a 5 + b 2 * a 8) (b 3 * a 0 + b 4 * a 3 + b 5 * a 6)
      (b 3 * a 1 + b 4 * a 4 + b 5 * a 7) (b 3 * a 2 + b 4 * a 5 + b 5 * a 8)
      (b 6 * a 0 + b 7 * a 3 + b 8 * a 6) (b 6 * a 1 + b 7 * a 4 + b 8 * a 7)
      (b 6 * a 2 + b 7 * a 5 + b 8 * a 8)
    rw [e0, e1, e2, e3, e4, e5, e6, e7, e8]
    exact vec3_congr (by ring) (by ring) (by ring)
  · intro α _ _ _ _ _ M tx ty t x y h1m hm1 h0m hm0 ha0 h0a
    obtain ⟨r0, r1, r2, r3, r4, r5, r6, r7, r8⟩ :=
      vec9_apply (M.cos t) (-(M.sin t)) 0 (M.sin t) (M.cos t) 0 0 0 (1 : α)
    obtain ⟨t0, t1, t2, t3, t4, t5, t6, t7, t8⟩ := vec9_apply 1 0 0 0 1 0 tx ty (1 : α)
    have hprod : m3.multiply (m3.translation tx ty) (m3.rotation M t)
        = ![M.cos t, -(M.sin t), 0, M.sin t, M.cos t, 0, tx, ty, 1] := by
      simp only [multiply_apply, m3.translation, m3.rotation]
      rw [r0, r1, r2, r3, r4, r5, r6, r7, r8, t0, t1, t2, t3, t4, t5, t6, t7, t8]
      simp only [h1m, hm1, h0m, hm0, ha0, h0a]
    have hrot : mulVec3 (m3.rotation M t) ![x, y, 1]
        = ![M.cos t * x + M.sin t * y, -(M.sin t) * x + M.cos t * y, 1] := by
      simp only [mulVec3_apply, m3.rotation]
      rw [r0, r1, r2, r3, r4, r5, r6, r7, r8]
      simp only [h1m, hm1, h0m, hm0, ha0, h0a]
    have htr : ∀ u v : α, mulVec3 (m3.translation tx ty) ![u, v, 1] = ![u + tx, v + ty, 1] := by
      intro u v
      simp only [mulVec3_apply, m3.translation]
      rw [t0, t1, t2, t3, t4, t5, t6, t7, t8]
      simp only [h1m, hm1, h0m, hm0, ha0, h0a]
    have hfull : mulVec3 (m3.multiply (m3.translation tx ty) (m3.rotation M t)) ![x, y, 1]
        = ![(M.cos t * x + M.sin t * y) + tx, (-(M.sin t) * x + M.cos t * y) + ty, 1] := by
      rw [hprod, mulVec3_apply]
      obtain ⟨p0, p1, p2, p3, p4, p5, p6, p7, p8⟩ :=
        vec9_apply (M.cos t) (-(M.sin t)) 0 (M.sin t) (M.cos t) 0 tx ty (1 : α)
      rw [p0, p1, p2, p3, p4, p5, p6, p7, p8]
      simp only [h1m, hm1, h0m, hm0, ha0, h0a]
    refine ⟨hprod, hrot, ?_, hfull⟩
    rw [hfull, hrot, htr]

/-! ## Exact real arithmetic: the motif, continuity and closure -/

/-- C3 (as the code computes it): in exact real arithmetic
`generateMinkowskiSide (0,0) (4,0) 1` returns the 8 points
`(0,0), (1,0), (1,-1), (2,-1), (2,0), (2,-1), (3,-1), (3,0)`, with `v = (4,0)`,
`v_quart = (1,0)` and `v_perp = (0,-1)`. -/
theorem side_unit_motif :
    generateMinkowskiSide (⟨Real.pi, Real.cos, Real.sin⟩ : JsMath ℝ) ⟨0, 0⟩ ⟨4, 0⟩ 1
        = [⟨0, 0⟩, ⟨1, 0⟩, ⟨1, -1⟩, ⟨2, -1⟩, ⟨2, 0⟩, ⟨2, -1⟩, ⟨3, -1⟩, ⟨3, 0⟩]
      ∧ Vec2.sub (⟨4, 0⟩ : Vec2 ℝ) ⟨0, 0⟩ = ⟨4, 0⟩
      ∧ (Vec2.sub (⟨4, 0⟩ : Vec2 ℝ) ⟨0, 0⟩).mult (1 / 4) = ⟨1, 0⟩
      ∧ ((Vec2.sub (⟨4, 0⟩ : Vec2 ℝ) ⟨0, 0⟩).rotateDeg ⟨Real.pi, Real.cos, Real.sin⟩ (-90)).mult
          (1 / 4) = ⟨0, -1⟩ := by
  have hperp : ((Vec2.sub (⟨4, 0⟩ : Vec2 ℝ) ⟨0, 0⟩).rotateDeg
      ⟨Real.pi, Real.cos, Real.sin⟩ (-90)).mult (1 / 4) = ⟨0, -1⟩ := by
    simp only [Vec2.rotateDeg, Vec2.sub, Vec2.mult, real_cos_quarter, real_sin_quarter]
    norm_num
  have hquart : (Vec2.sub (⟨4, 0⟩ : Vec2 ℝ) ⟨0, 0⟩).mult (1 / 4) = ⟨1, 0⟩ := by
    simp only [Vec2.sub, Vec2.mult]
    norm_num
  have h0 : ∀ a b : Vec2 ℝ,
      generateMinkowskiSide (⟨Real.pi, Real.cos, Real.sin⟩ : JsMath ℝ) a b 0 = [a] :=
    fun a b => side_of_nonpos _ a b (le_refl 0)
  refine ⟨?_, by simp [Vec2.sub], hquart, hperp⟩
  rw [side_of_pos _ _ _ (by norm_num)]
  simp only [hperp, hquart, sub_self, h0, Vec2.add]
  norm_num

/-- C3 (as the spec words it) fails: the first seven points are not
`(0,0), (1,0), (1,1), (2,1), (2,0), (3,0), (3,1)` and `v_perp` is not `(0,1)`. -/
theorem unit_motif_differs_from_spec :
    (generateMinkowskiSide (⟨Real.pi, Real.cos, Real.sin⟩ : JsMath ℝ) ⟨0, 0⟩ ⟨4, 0⟩ 1).take 7
        ≠ [⟨0, 0⟩, ⟨1, 0⟩, ⟨1, 1⟩, ⟨2, 1⟩, ⟨2, 0⟩, ⟨3, 0⟩, ⟨3, 1⟩]
      ∧ ((Vec2.sub (⟨4, 0⟩ : Vec2 ℝ) ⟨0, 0⟩).rotateDeg ⟨Real.pi, Real.cos, Real.sin⟩ (-90)).mult
          (1 / 4) ≠ ⟨0, 1⟩ := by
  have hperp : ((Vec2.sub (⟨4, 0⟩ : Vec2 ℝ) ⟨0, 0⟩).rotateDeg
      ⟨Real.pi, Real.cos, Real.sin⟩ (-90)).mult (1 / 4) = ⟨0, -1⟩ := by
    simp only [Vec2.rotateDeg, Vec2.sub, Vec2.mult, real_cos_quarter, real_sin_quarter]
    norm_num
  have hquart : (Vec2.sub (⟨4, 0⟩ : Vec2 ℝ) ⟨0, 0⟩).mult (1 / 4) = ⟨1, 0⟩ := by
    simp only [Vec2.sub, Vec2.mult]
    norm_num
  have h0 : ∀ a b : Vec2 ℝ,
      generateMinkowskiSide (⟨Real.pi, Real.cos, Real.sin⟩ : JsMath ℝ) a b 0 = [a] :=
    fun a b => side_of_nonpos _ a b (le_refl 0)
  constructor
  · rw [side_of_pos _ _ _ (by norm_num)]
    simp only [hperp, hquart, sub_self, h0, Vec2.add]
    norm_num
  · rw [hperp]
    norm_num

/-- C6: for all points `p1`, `p2` and every integer `depth > 0`, in exact real arithmetic, the
last point `L` of `generateMinkowskiSide p1 p2 depth` satisfies
`L + (p2 - p1) / 4 ^ depth = p2`, coordinate by coordinate. -/
theorem side_last_point_reaches_p2 (M : JsMath ℝ) (p1 p2 : Vec2 ℝ) (depth : Int)
    (hdepth : 0 < depth) :
    ∃ L, (generateMinkowskiSide M p1 p2 depth).getLast? = some L
      ∧ L.x + (p2.x - p1.x) / 4 ^ depth.toNat = p2.x
      ∧ L.y + (p2.y - p1.y) / 4 ^ depth.toNat = p2.y := by
  lift depth to Nat using hdepth.le
  simpa using side_getLast M depth p1 p2

theorem side_last_point_reaches_p2_witness :
    (0 : Int) < 1
      ∧ ∃ L, (generateMinkowskiSide (⟨Real.pi, Real.cos, Real.sin⟩ : JsMath ℝ)
            ⟨0, 0⟩ ⟨4, 0⟩ 1).getLast? = some L
          ∧ L.x + ((4 : ℝ) - 0) / 4 ^ (1 : Int).toNat = 4
          ∧ L.y + ((0 : ℝ) - 0) / 4 ^ (1 : Int).toNat = 0 :=
  ⟨by decide, side_last_point_reaches_p2 ⟨Real.pi, Real.cos, Real.sin⟩ ⟨0, 0⟩ ⟨4, 0⟩ 1
    (by decide)⟩

/-- C5: for every center, every `size > 0` and every integer `depth ≥ 0`, in exact real
arithmetic, vertex `i` of the island differs from vertex `i + 1` for every `i`, the successor
of the last vertex being the first one. -/
theorem island_adjacent_vertices_differ (center : Vec2 ℝ) (size : ℝ) (depth : Int)
    (hsize : 0 < size) (hdepth : 0 ≤ depth) (i : Nat) (hi : i < 4 * 8 ^ depth.toNat) :
    ∃ p q,
      vertexAt (generateMinkowskiIslandVertices ⟨Real.pi, Real.cos, Real.sin⟩ center size depth) i
          = some p
        ∧ vertexAt (generateMinkowskiIslandVertices ⟨Real.pi, Real.cos, Real.sin⟩ center size depth)
            ((i + 1) % (4 * 8 ^ depth.toNat)) = some q
        ∧ p ≠ q := by
  lift depth to Nat using hdepth
  simp only [Int.toNat_ofNat] at hi ⊢
  exact island_cyclic ⟨Real.pi, Real.cos, Real.sin⟩ real_cos_quarter real_sin_quarter center size
    hsize depth i hi

theorem island_adjacent_vertices_differ_witness :
    (0 : ℝ) < 10 ∧ (0 : Int) ≤ 1 ∧ 31 < 4 * 8 ^ (1 : Int).toNat
      ∧ ∃ p q,
        vertexAt (generateMinkowskiIslandVertices ⟨Real.pi, Real.cos, Real.sin⟩ ⟨0, 0⟩ 10 1) 31
            = some p
          ∧ vertexAt (generateMinkowskiIslandVertices ⟨Real.pi, Real.cos, Real.sin⟩ ⟨0, 0⟩ 10 1)
              ((31 + 1) % (4 * 8 ^ (1 : Int).toNat)) = some q
          ∧ p ≠ q :=
  ⟨by norm_num, by decide, by decide,
    island_adjacent_vertices_differ ⟨0, 0⟩ 10 1 (by norm_num) (by decide) 31 (by decide)⟩

/-! ## The base square -/

/-- C7: for every center `(cx, cy)`, every size with `h = size / 2` and every integer
`depth ≥ 0`, the island vertices at indices `0`, `8 ^ depth`, `2 * 8 ^ depth` and
`3 * 8 ^ depth` are the square corners `(cx-h, cy-h)`, `(cx+h, cy-h)`, `(cx+h, cy+h)`,
`(cx-h, cy+h)`; at depth 0 the result is exactly these four corners, and
`generateMinkowskiIslandVertices (0,0) 10 0 = [-5,-5, 5,-5, 5,5, -5,5]`. -/
theorem island_square_corners {α : Type} [Field α] (M : JsMath α) (center : Vec2 α) (size : α)
    (depth : Int) (hdepth : 0 ≤ depth) :
    (vertexAt (generateMinkowskiIslandVertices M center size depth) 0
        = some ⟨center.x - size / 2, center.y - size / 2⟩
      ∧ vertexAt (generateMinkowskiIslandVertices M center size depth) (8 ^ depth.toNat)
        = some ⟨center.x + size / 2, center.y - size / 2⟩
      ∧ vertexAt (generateMinkowskiIslandVertices M center size depth) (2 * 8 ^ depth.toNat)
        = some ⟨center.x + size / 2, center.y + size / 2⟩
      ∧ vertexAt (generateMinkowskiIslandVertices M center size depth) (3 * 8 ^ depth.toNat)
        = some ⟨center.x - size / 2, center.y + size / 2⟩)
      ∧ generateMinkowskiIslandVertices M center size 0
          = [center.x - size / 2, center.y - size / 2, center.x + size / 2, center.y - size / 2,
             center.x + size / 2, center.y + size / 2, center.x - size / 2, center.y + size / 2]
      ∧ generateMinkowskiIslandVertices quarterTurnMath ⟨0, 0⟩ 10 0
          = [-5, -5, 5, -5, 5, 5, -5, 5] := by
  refine ⟨?_, ?_, ?_⟩
  · lift depth to Nat using hdepth
    simpa using island_corner_points M center size depth
  · rw [island_eq_flatten]
    simp only [side_zero, Vec2.add, ← sub_eq_add_neg]
    rfl
  · rw [island_eq_flatten]
    simp only [side_zero, Vec2.add, List.foldl, List.append_assoc, List.cons_append,
      List.nil_append]
    norm_num

theorem island_square_corners_witness :
    (0 : Int) ≤ 1
      ∧ vertexAt (generateMinkowskiIslandVertices quarterTurnMath ⟨0, 0⟩ 10 1) (8 ^ (1 : Int).toNat)
          = some ⟨0 + 10 / 2, 0 - 10 / 2⟩ :=
  ⟨by decide, (island_square_corners quarterTurnMath ⟨0, 0⟩ 10 1 (by decide)).1.2.1⟩

/-- C8 (as the spec words it) fails for a negative size: with center `(0,0)`, size `-2` and
depth 0 the result is `[1,1, -1,1, -1,-1, 1,-1]`, whose first two corners differ. -/
theorem island_negative_size_not_degenerate :
    (-2 : ℚ) ≤ 0
      ∧ generateMinkowskiIslandVertices quarterTurnMath ⟨0, 0⟩ (-2) 0
          = [1, 1, -1, 1, -1, -1, 1, -1]
      ∧ vertexAt (generateMinkowskiIslandVertices quarterTurnMath ⟨0, 0⟩ (-2) 0) 0
          ≠ vertexAt (generateMinkowskiIslandVertices quarterTurnMath ⟨0, 0⟩ (-2) 0) 1 := by
  have h : generateMinkowskiIslandVertices quarterTurnMath ⟨0, 0⟩ (-2) 0
      = [1, 1, -1, 1, -1, -1, 1, -1] := by
    rw [island_eq_flatten]
    simp only [side_zero, Vec2.add, List.foldl, List.append_assoc, List.cons_append,
      List.nil_append]
    norm_num
  refine ⟨by norm_num, h, ?_⟩
  rw [h]
  simp only [vertexAt]
  norm_num

/-- C8 (as the code computes it): for every center, every size (in particular every
`size ≤ 0`) and every integer `depth ≥ 0` the function returns `8 * 8 ^ depth` numbers, and
when `size = 0` the four base-square corners coincide: each of them is the center. -/
theorem island_zero_size_corners {α : Type} [Field α] (M : JsMath α) (center : Vec2 α)
    (size : α) (depth : Int) (hdepth : 0 ≤ depth) :
    (generateMinkowskiIslandVertices M center size depth).length = 8 * 8 ^ depth.toNat
      ∧ (size = 0 →
          vertexAt (generateMinkowskiIslandVertices M center size depth) 0 = some center
            ∧ vertexAt (generateMinkowskiIslandVertices M center size depth) (8 ^ depth.toNat)
              = some center
            ∧ vertexAt (generateMinkowskiIslandVertices M center size depth)
              (2 * 8 ^ depth.toNat) = some center
            ∧ vertexAt (generateMinkowskiIslandVertices M center size depth)
              (3 * 8 ^ depth.toNat) = some center) := by
  lift depth to Nat using hdepth
  simp only [Int.toNat_ofNat]
  refine ⟨?_, ?_⟩
  · rw [island_eq_flatten, flatten_length]
    simp only [List.length_append, side_length_nat]
    ring
  · intro h0
    subst h0
    obtain ⟨h1, h2, h3, h4⟩ := island_corner_points M center 0 depth
    simp only [zero_div, sub_zero, add_zero] at h1 h2 h3 h4
    exact ⟨h1, h2, h3, h4⟩

theorem island_zero_size_corners_witness :
    (0 : Int) ≤ 1
      ∧ (generateMinkowskiIslandVertices quarterTurnMath ⟨3, 4⟩ 0 1).length
          = 8 * 8 ^ (1 : Int).toNat
      ∧ ((0 : ℚ) = 0 →
          vertexAt (generateMinkowskiIslandVertices quarterTurnMath ⟨3, 4⟩ 0 1) 0 = some ⟨3, 4⟩
            ∧ vertexAt (generateMinkowskiIslandVertices quarterTurnMath ⟨3, 4⟩ 0 1)
              (8 ^ (1 : Int).toNat) = some ⟨3, 4⟩
            ∧ vertexAt (generateMinkowskiIslandVertices quarterTurnMath ⟨3, 4⟩ 0 1)
              (2 * 8 ^ (1 : Int).toNat) = some ⟨3, 4⟩
            ∧ vertexAt (generateMinkowskiIslandVertices quarterTurnMath ⟨3, 4⟩ 0 1)
              (3 * 8 ^ (1 : Int).toNat) = some ⟨3, 4⟩) :=
  ⟨by decide, island_zero_size_corners quarterTurnMath ⟨3, 4⟩ 0 1 (by decide)⟩

end MinkowskiIsland
